import Mathlib

/-!
Verification of the AHP core of this repository: a shallow embedding of the
numeric routines of `KriteriaAHP.py` (`build_matrix`, `ahp_weights`,
`consistency`, `RI_DICT`, the admin geometric-mean aggregation) and of
`disertasiAHP.py` (`build_pairwise_matrix`, `priority_vector`,
`consistency_ratio`, `RI_table`), together with theorems checking the
specified properties of matrix construction, weight derivation, consistency
measurement and multi-expert aggregation.

Conventions of the embedding:
* Python/NumPy floating-point numbers are idealised as exact numbers (a
  `LinearOrderedField`, instantiated at `ℚ` or `ℝ`).  A scalar step whose
  float result is not a real number (a division by zero producing `inf` or
  `nan`, the mean of an empty array) is modelled as `Option.none`.
* A Python expression that raises (`KeyError` from a dict lookup,
  `ZeroDivisionError` from `1 / v` on a scalar zero, `IndexError` from an
  out-of-range list access) is modelled with an `Option` result, `none`
  standing for the raised exception.
* `np.linalg.eig` is modelled relationally by `dominantEigPriority`: NumPy
  returns some eigenpair whose eigenvalue is maximal in the lexicographic
  (real part, imaginary part) order that NumPy's `argmax` uses on complex
  arrays; the scaling of the returned eigenvector is unspecified.
-/

/-- Model of looking up `k` in the Python dict
`idx = {k: i for i, k in enumerate(items)}` (from `build_matrix` in
`KriteriaAHP.py`), threading the running index `s` and the accumulated
binding `acc`: a later occurrence of the same key overwrites an earlier
one, and a key that never occurs is a `KeyError` (`none`). -/
def pyIdxFrom {α : Type} [DecidableEq α] (k : α) : ℕ → List α → Option ℕ → Option ℕ
  | _, [], acc => acc
  | s, x :: rest, acc => pyIdxFrom k (s + 1) rest (if x = k then some s else acc)

/-- The index `idx[k]` of `build_matrix` in `KriteriaAHP.py`:
the position of the last occurrence of `k` in `items`, or `none`
(a `KeyError`) when `k` is not an item. -/
def pyIdx {α : Type} [DecidableEq α] (items : List α) (k : α) : Option ℕ :=
  pyIdxFrom k 0 items none

/-- The two assignments `M[i, j] = v` followed by `M[j, i] = 1 / v` of the
builders in both source files, as an update of a matrix represented as a
total function on positions.  When `i = j` the second assignment overwrites
the first, which the order of the tests reproduces. -/
def setPair {K : Type} [Field K] (M : ℕ → ℕ → K) (i j : ℕ) (v : K) : ℕ → ℕ → K :=
  fun a b => if a = j ∧ b = i then 1 / v else if a = i ∧ b = j then v else M a b

/-- One iteration of the loop `for (a, b), v in pairs.items()` of
`build_matrix` in `KriteriaAHP.py`: look both keys up (`KeyError` when one
is not an item), then perform the two reciprocal assignments
(`ZeroDivisionError` when `v` is zero, from `1 / v`). -/
def bmStep {α K : Type} [DecidableEq α] [Field K] [DecidableEq K] (items : List α) :
    Option (ℕ → ℕ → K) → ((α × α) × K) → Option (ℕ → ℕ → K) :=
  fun acc pv =>
    acc.bind fun M =>
      match pyIdx items pv.1.1, pyIdx items pv.1.2 with
      | some i, some j => if pv.2 = 0 then none else some (setPair M i j pv.2)
      | _, _ => none

/-- `build_matrix(items, pairs)` from `KriteriaAHP.py`: start from
`np.ones((n, n))` and fold the judgment entries over it.  The `pairs` dict
is modelled as a list of key/value entries in insertion order. -/
def build_matrix {α K : Type} [DecidableEq α] [Field K] [DecidableEq K]
    (items : List α) (pairs : List ((α × α) × K)) : Option (ℕ → ℕ → K) :=
  pairs.foldl (bmStep items) (some fun _ _ => 1)

/-- The index pairs `(i, j)` visited by the nested loops
`for i in range(n): for j in range(i+1, n)` of `build_pairwise_matrix`
in `disertasiAHP.py`, in visiting order. -/
def upperPairs (n : ℕ) : List (ℕ × ℕ) :=
  (List.range n).flatMap fun i => (List.range (n - i - 1)).map fun t => (i, i + 1 + t)

/-- One iteration of the loop body of `build_pairwise_matrix` in
`disertasiAHP.py`: read `v = values[idx]` (`IndexError`, hence `none`, when
the list is exhausted), perform the two reciprocal assignments
(`ZeroDivisionError` when `v` is zero, from `1 / v`), and advance `idx`. -/
def pbStep {K : Type} [Field K] [DecidableEq K] (values : List K) :
    Option (ℕ × (ℕ → ℕ → K)) → ℕ × ℕ → Option (ℕ × (ℕ → ℕ → K)) :=
  fun st p =>
    st.bind fun s =>
      match values[s.1]? with
      | some v => if v = 0 then none else some (s.1 + 1, setPair s.2 p.1 p.2 v)
      | none => none

/-- `build_pairwise_matrix(items, values)` from `disertasiAHP.py`: walk the
upper triangle reading `values[idx]` with a running counter and perform the
two reciprocal assignments for each visited cell. -/
def build_pairwise_matrix {α K : Type} [Field K] [DecidableEq K]
    (items : List α) (values : List K) : Option (ℕ → ℕ → K) :=
  ((upperPairs items.length).foldl (pbStep values) (some (0, fun _ _ => 1))).map Prod.snd

/-- The positions `(i, j)` and `(j, i)` of the matrix are written by no
entry of `pairs` (their keys never resolve to this unordered position
pair), so `build_matrix` leaves the initial `np.ones` value there. -/
def UntouchedPair {α K : Type} [DecidableEq α] (items : List α)
    (pairs : List ((α × α) × K)) (i j : ℕ) : Prop :=
  ∀ p ∈ pairs, ∀ k l, pyIdx items p.1.1 = some k → pyIdx items p.1.2 = some l →
    ¬(i = k ∧ j = l) ∧ ¬(i = l ∧ j = k)

/-- `RI_DICT.get(n, 1.49)` from `KriteriaAHP.py` (decimal constants written
as exact fractions).  Note the explicit entries for orders 11 and 12 beyond
the ten the specification lists. -/
def RI_DICT : ℕ → ℚ
  | 1 => 0
  | 2 => 0
  | 3 => 58 / 100
  | 4 => 90 / 100
  | 5 => 112 / 100
  | 6 => 124 / 100
  | 7 => 132 / 100
  | 8 => 141 / 100
  | 9 => 145 / 100
  | 10 => 149 / 100
  | 11 => 151 / 100
  | 12 => 148 / 100
  | _ => 149 / 100

/-- `RI_table.get(n, 1.49)` from `consistency_ratio` in `disertasiAHP.py`
(entries for orders 1..10 only, default 1.49). -/
def RI_table : ℕ → ℚ
  | 1 => 0
  | 2 => 0
  | 3 => 58 / 100
  | 4 => 90 / 100
  | 5 => 112 / 100
  | 6 => 124 / 100
  | 7 => 132 / 100
  | 8 => 141 / 100
  | 9 => 145 / 100
  | 10 => 149 / 100
  | _ => 149 / 100

/-- `consistency(M, w)` from `KriteriaAHP.py`:
`lam = np.mean((M @ w) / w)`, `CI = (lam - n) / (n - 1)`,
`CR = CI / RI_DICT.get(n, 1.49)`, returning the pair `(CI, CR)`.
A value whose float computation divides by zero (some `w i = 0`, the `n = 1`
denominator, the `RI = 0` denominator for orders 1 and 2) or averages an
empty array (`n = 0`) is not a real number and is modelled as `none`. -/
def consistencyK {K : Type} [LinearOrderedField K] [DecidableEq K] (n : ℕ)
    (M : Fin n → Fin n → K) (w : Fin n → K) : Option K × Option K :=
  let lam : Option K :=
    if n ≠ 0 ∧ ∀ i, w i ≠ 0 then
      some ((∑ i, (∑ j, M i j * w j) / w i) / (n : K))
    else none
  let ci : Option K :=
    lam.bind fun l => if n = 1 then none else some ((l - (n : K)) / ((n : K) - 1))
  let cr : Option K :=
    ci.bind fun c => if RI_DICT n = 0 then none else some (c / ((RI_DICT n : ℚ) : K))
  (ci, cr)

/-- The deterministic tail of `consistency_ratio(matrix)` from
`disertasiAHP.py`, taking the already-computed priority vector `vec` as an
argument: `lam = np.sum(np.dot(matrix, vec) / vec) / n`,
`CI = (lam - n) / (n - 1) if n > 2 else 0`,
`return CI / RI if RI != 0 else 0`. -/
def consistency_ratioW {K : Type} [LinearOrderedField K] (n : ℕ)
    (M : Fin n → Fin n → K) (vec : Fin n → K) : K :=
  let lam := (∑ i, (∑ j, M i j * vec j) / vec i) / (n : K)
  let ci := if 2 < n then (lam - (n : K)) / ((n : K) - 1) else 0
  if RI_table n = 0 then 0 else ci / ((RI_table n : ℚ) : K)

/-- `ahp_weights(M)` from `KriteriaAHP.py`:
`gm = np.prod(M, axis=1) ** (1 / M.shape[0]); return gm / gm.sum()`,
with `**` the real power `Real.rpow`. -/
noncomputable def ahp_weights (n : ℕ) (M : Fin n → Fin n → ℝ) : Fin n → ℝ :=
  fun i => (∏ j, M i j) ^ ((1 : ℝ) / n) / ∑ k, (∏ j, M k j) ^ ((1 : ℝ) / n)

/-- The expert aggregation `GM = np.exp(np.mean(np.log(mats), axis=0))` from
the admin page of `KriteriaAHP.py`, for `k` expert matrices of order `n`. -/
noncomputable def aggregateGM (k n : ℕ) (mats : Fin k → Fin n → Fin n → ℝ) :
    Fin n → Fin n → ℝ :=
  fun i j => Real.exp ((∑ m, Real.log (mats m i j)) / (k : ℝ))

/-- Relational model of `priority_vector(matrix)` from `disertasiAHP.py`:
`eigvals, eigvecs = np.linalg.eig(matrix); max_index = np.argmax(eigvals);
vec = np.abs(eigvecs[:, max_index]); return vec / np.sum(vec)`.
`lam` is an eigenvalue of the matrix maximal in NumPy's lexicographic
(real part, imaginary part) order on complex numbers, `v` an eigenvector
for it (any nonzero representative), and `p` the absolute-value-normalised
result. -/
def dominantEigPriority (n : ℕ) (M : Fin n → Fin n → ℝ) (p : Fin n → ℝ) : Prop :=
  ∃ (lam : ℂ) (v : Fin n → ℂ),
    v ≠ 0 ∧
    (∀ i, ∑ j, (M i j : ℂ) * v j = lam * v i) ∧
    (∀ (mu : ℂ) (u : Fin n → ℂ), u ≠ 0 → (∀ i, ∑ j, (M i j : ℂ) * u j = mu * u i) →
      mu.re < lam.re ∨ (mu.re = lam.re ∧ mu.im ≤ lam.im)) ∧
    (∀ i, p i = Complex.abs (v i) / ∑ j, Complex.abs (v j))

/-- The identity and reciprocity invariants of a comparison matrix. -/
def IsReciprocal {K : Type} [Field K] (M : ℕ → ℕ → K) : Prop :=
  (∀ i, M i i = 1) ∧ ∀ i j, M i j * M j i = 1

/-! ## Basic facts about the index lookup `pyIdx` -/

theorem pyIdxFrom_acc_isSome {α : Type} [DecidableEq α] (k : α) (l : List α) :
    ∀ (s : ℕ) (acc : Option ℕ), acc.isSome → (pyIdxFrom k s l acc).isSome := by
  induction l with
  | nil => intro s acc h; exact h
  | cons x rest ih =>
    intro s acc h
    simp only [pyIdxFrom]
    apply ih
    split <;> simp [h]

theorem pyIdx_isSome_of_mem {α : Type} [DecidableEq α] {items : List α} {k : α}
    (hm : k ∈ items) : (pyIdx items k).isSome := by
  unfold pyIdx
  have : ∀ (l : List α), k ∈ l → ∀ (s : ℕ) (acc : Option ℕ), (pyIdxFrom k s l acc).isSome := by
    intro l
    induction l with
    | nil => intro h; cases h
    | cons x rest ih =>
      intro hmem s acc
      simp only [pyIdxFrom]
      rcases List.mem_cons.mp hmem with h | h
      · exact pyIdxFrom_acc_isSome k rest (s + 1) _ (by rw [if_pos h.symm]; rfl)
      · exact ih h (s + 1) _
  exact this items hm 0 none

theorem pyIdxFrom_some {α : Type} [DecidableEq α] (k : α) (l : List α) :
    ∀ (s i : ℕ) (acc : Option ℕ), pyIdxFrom k s l acc = some i →
      (∃ t, t < l.length ∧ s + t = i ∧ l.get? t = some k) ∨ acc = some i := by
  induction l with
  | nil => intro s i acc h; exact Or.inr h
  | cons x rest ih =>
    intro s i acc h
    simp only [pyIdxFrom] at h
    rcases ih (s + 1) i _ h with ⟨t, ht, hst, hget⟩ | hacc
    · exact Or.inl ⟨t + 1, by simpa using ht, by omega, by simpa using hget⟩
    · by_cases hx : x = k
      · rw [if_pos hx] at hacc
        obtain rfl : s = i := Option.some.inj hacc
        exact Or.inl ⟨0, by simp, by omega, by simp [hx]⟩
      · rw [if_neg hx] at hacc
        exact Or.inr hacc

theorem pyIdx_get {α : Type} [DecidableEq α] (items : List α) (k : α) (i : ℕ)
    (h : pyIdx items k = some i) : items.get? i = some k := by
  rcases pyIdxFrom_some k items 0 i none h with ⟨t, _, hst, hget⟩ | hacc
  · have : t = i := by omega
    rwa [this] at hget
  · cases hacc

theorem pyIdx_eq_none_of_not_mem {α : Type} [DecidableEq α] {items : List α} {k : α}
    (h : k ∉ items) : pyIdx items k = none := by
  cases hp : pyIdx items k with
  | none => rfl
  | some i => exact absurd (List.get?_mem (pyIdx_get items k i hp)) h

theorem pyIdx_inj {α : Type} [DecidableEq α] {items : List α} {a b : α} {i : ℕ}
    (ha : pyIdx items a = some i) (hb : pyIdx items b = some i) : a = b := by
  have h1 := pyIdx_get items a i ha
  have h2 := pyIdx_get items b i hb
  rw [h1] at h2
  exact Option.some.inj h2

/-! ## Basic facts about `setPair` and the `build_matrix` fold -/

theorem setPair_untouched {K : Type} [Field K] (M : ℕ → ℕ → K) (i j : ℕ) (v : K)
    (a b : ℕ) (h1 : ¬(a = i ∧ b = j)) (h2 : ¬(a = j ∧ b = i)) :
    setPair M i j v a b = M a b := by
  unfold setPair
  rw [if_neg h2, if_neg h1]

theorem isReciprocal_setPair {K : Type} [Field K] {M : ℕ → ℕ → K}
    (hG : IsReciprocal M) {i j : ℕ} (hij : i ≠ j) {v : K} (hv : v ≠ 0) :
    IsReciprocal (setPair M i j v) := by
  constructor
  · intro a
    rw [setPair_untouched M i j v a a (by omega) (by omega)]
    · exact hG.1 a
  · intro a b
    by_cases hab : a = i ∧ b = j
    · obtain ⟨rfl, rfl⟩ := hab
      unfold setPair
      rw [if_neg (by omega), if_pos ⟨rfl, rfl⟩, if_pos ⟨rfl, rfl⟩]
      exact mul_one_div_cancel hv
    · by_cases hba : a = j ∧ b = i
      · obtain ⟨rfl, rfl⟩ := hba
        unfold setPair
        rw [if_pos ⟨rfl, rfl⟩, if_neg (by omega), if_pos ⟨rfl, rfl⟩]
        exact one_div_mul_cancel hv
      · rw [setPair_untouched M i j v a b hab hba,
          setPair_untouched M i j v b a (by omega) (by omega)]
        exact hG.2 a b

theorem foldl_bmStep_none {α K : Type} [DecidableEq α] [Field K] [DecidableEq K]
    (items : List α) (l : List ((α × α) × K)) :
    l.foldl (bmStep items) none = none := by
  induction l with
  | nil => rfl
  | cons p rest ih => simpa [bmStep] using ih

theorem foldl_bmStep_good {α K : Type} [DecidableEq α] [Field K] [DecidableEq K]
    (items : List α) (pairs : List ((α × α) × K)) :
    ∀ (M : ℕ → ℕ → K),
      (∀ p ∈ pairs, p.1.1 ∈ items ∧ p.1.2 ∈ items ∧ p.1.1 ≠ p.1.2 ∧ p.2 ≠ 0) →
      IsReciprocal M →
      ∃ N, pairs.foldl (bmStep items) (some M) = some N ∧ IsReciprocal N := by
  induction pairs with
  | nil => intro M _ hG; exact ⟨M, rfl, hG⟩
  | cons p rest ih =>
    intro M hval hG
    obtain ⟨ha, hb, hne, hv0⟩ := hval p (List.mem_cons_self p rest)
    obtain ⟨i, hi⟩ := Option.isSome_iff_exists.mp (pyIdx_isSome_of_mem ha)
    obtain ⟨j, hj⟩ := Option.isSome_iff_exists.mp (pyIdx_isSome_of_mem hb)
    have hij : i ≠ j := by
      intro h
      exact hne (pyIdx_inj hi (h ▸ hj))
    have step : bmStep items (some M) p = some (setPair M i j p.2) := by
      simp [bmStep, hi, hj, hv0]
    rw [List.foldl_cons, step]
    exact ih (setPair M i j p.2) (fun q hq => hval q (List.mem_cons_of_mem p hq))
      (isReciprocal_setPair hG hij hv0)

theorem foldl_bmStep_isSome {α K : Type} [DecidableEq α] [Field K] [DecidableEq K]
    (items : List α) (pairs : List ((α × α) × K)) :
    ∀ (M : ℕ → ℕ → K),
      (∀ p ∈ pairs, p.1.1 ∈ items ∧ p.1.2 ∈ items ∧ p.2 ≠ 0) →
      (pairs.foldl (bmStep items) (some M)).isSome := by
  induction pairs with
  | nil => intro M _; rfl
  | cons p rest ih =>
    intro M hval
    obtain ⟨ha, hb, hv0⟩ := hval p (List.mem_cons_self p rest)
    obtain ⟨i, hi⟩ := Option.isSome_iff_exists.mp (pyIdx_isSome_of_mem ha)
    obtain ⟨j, hj⟩ := Option.isSome_iff_exists.mp (pyIdx_isSome_of_mem hb)
    have step : bmStep items (some M) p = some (setPair M i j p.2) := by
      simp [bmStep, hi, hj, hv0]
    rw [List.foldl_cons, step]
    exact ih (setPair M i j p.2) (fun q hq => hval q (List.mem_cons_of_mem p hq))

theorem foldl_bmStep_badkey {α K : Type} [DecidableEq α] [Field K] [DecidableEq K]
    (items : List α) (pairs : List ((α × α) × K)) :
    ∀ (acc : Option (ℕ → ℕ → K)) (p : (α × α) × K), p ∈ pairs →
      (p.1.1 ∉ items ∨ p.1.2 ∉ items) →
      pairs.foldl (bmStep items) acc = none := by
  induction pairs with
  | nil => intro acc p hp; cases hp
  | cons q rest ih =>
    intro acc p hp hbad
    rcases List.mem_cons.mp hp with rfl | hmem
    · have step : bmStep items acc p = none := by
        cases acc with
        | none => rfl
        | some M =>
          rcases hbad with hbad | hbad
          · simp [bmStep, pyIdx_eq_none_of_not_mem hbad]
          · cases h1 : pyIdx items p.1.1 <;>
              simp [bmStep, h1, pyIdx_eq_none_of_not_mem hbad]
      rw [List.foldl_cons, step]
      exact foldl_bmStep_none items rest
    · rw [List.foldl_cons]
      exact ih (bmStep items acc q) p hmem hbad

theorem foldl_bmStep_untouched {α K : Type} [DecidableEq α] [Field K] [DecidableEq K]
    (items : List α) (i j : ℕ) (pairs : List ((α × α) × K)) :
    ∀ (M : ℕ → ℕ → K),
      (∀ p ∈ pairs, ∀ k l, pyIdx items p.1.1 = some k → pyIdx items p.1.2 = some l →
        ¬(i = k ∧ j = l) ∧ ¬(i = l ∧ j = k)) →
      ∀ N, pairs.foldl (bmStep items) (some M) = some N → N i j = M i j := by
  induction pairs with
  | nil =>
    intro M _ N h
    rw [Option.some.inj h]
  | cons p rest ih =>
    intro M huntouched N hfold
    rw [List.foldl_cons] at hfold
    cases hk : pyIdx items p.1.1 with
    | none =>
      rw [show bmStep items (some M) p = none by simp [bmStep, hk], foldl_bmStep_none] at hfold
      cases hfold
    | some k =>
      cases hl : pyIdx items p.1.2 with
      | none =>
        rw [show bmStep items (some M) p = none by simp [bmStep, hk, hl], foldl_bmStep_none]
          at hfold
        cases hfold
      | some l =>
        by_cases hv : p.2 = 0
        · rw [show bmStep items (some M) p = none by simp [bmStep, hk, hl, hv],
            foldl_bmStep_none] at hfold
          cases hfold
        · rw [show bmStep items (some M) p = some (setPair M k l p.2) by
            simp [bmStep, hk, hl, hv]] at hfold
          obtain ⟨h1, h2⟩ := huntouched p (List.mem_cons_self p rest) k l hk hl
          have := ih (setPair M k l p.2)
            (fun q hq => huntouched q (List.mem_cons_of_mem p hq)) N hfold
          rwa [setPair_untouched M k l p.2 i j h1 h2] at this

/-! ## Basic facts about the random-index tables -/

theorem RI_DICT_ge13 (n : ℕ) (h : 13 ≤ n) : RI_DICT n = 149 / 100 := by
  obtain ⟨m, rfl⟩ : ∃ m, n = m + 13 := ⟨n - 13, by omega⟩
  rfl

theorem RI_table_ge11 (n : ℕ) (h : 11 ≤ n) : RI_table n = 149 / 100 := by
  obtain ⟨m, rfl⟩ : ∃ m, n = m + 11 := ⟨n - 11, by omega⟩
  rfl

theorem RI_DICT_ne_zero (n : ℕ) (h : 3 ≤ n) : RI_DICT n ≠ 0 := by
  rcases lt_or_ge n 13 with hlt | hge
  · interval_cases n <;> norm_num [RI_DICT]
  · rw [RI_DICT_ge13 n hge]; norm_num

theorem RI_table_eq_zero_iff (n : ℕ) : RI_table n = 0 ↔ n = 1 ∨ n = 2 := by
  rcases lt_or_ge n 11 with hlt | hge
  · interval_cases n <;> norm_num [RI_table]
  · rw [RI_table_ge11 n hge]
    constructor
    · intro h; norm_num at h
    · intro h; omega

/-! ## Theorems: the random-index table (claim C6) -/

/-- Claim C6 (counterexample): the claim states that for every `n > 10` the
random index used by the consistency check equals the `n = 10` value `1.49`,
but `RI_DICT` in `KriteriaAHP.py` carries an explicit entry `11 ↦ 1.51`. -/
theorem RI_DICT_eleven_cx : RI_DICT 11 = 151 / 100 ∧ ¬ RI_DICT 11 = 149 / 100 := by
  constructor <;> norm_num [RI_DICT]

/-- Claim C6 (amended): both tables agree with the specified values for
orders 1..10 (0, 0, 0.58, 0.90, 1.12, 1.24, 1.32, 1.41, 1.45, 1.49, written
as exact fractions); `RI_table` of `disertasiAHP.py` falls back to `1.49`
for every `n > 10`; but `RI_DICT` of `KriteriaAHP.py` has explicit entries
`11 ↦ 1.51` and `12 ↦ 1.48` and only falls back to `1.49` from `n = 13`. -/
theorem RI_tables_spec :
    (∀ n, 1 ≤ n → n ≤ 10 → RI_DICT n = RI_table n)
    ∧ (RI_table 1 = 0 ∧ RI_table 2 = 0 ∧ RI_table 3 = 58 / 100
        ∧ RI_table 4 = 90 / 100 ∧ RI_table 5 = 112 / 100 ∧ RI_table 6 = 124 / 100
        ∧ RI_table 7 = 132 / 100 ∧ RI_table 8 = 141 / 100 ∧ RI_table 9 = 145 / 100
        ∧ RI_table 10 = 149 / 100)
    ∧ (∀ n, 10 < n → RI_table n = 149 / 100)
    ∧ (RI_DICT 11 = 151 / 100 ∧ RI_DICT 12 = 148 / 100)
    ∧ (∀ n, 13 ≤ n → RI_DICT n = 149 / 100) := by
  refine ⟨?_, ?_, ?_, ?_, ?_⟩
  · intro n h1 h2
    interval_cases n <;> rfl
  · exact ⟨rfl, rfl, rfl, rfl, rfl, rfl, rfl, rfl, rfl, rfl⟩
  · intro n h
    exact RI_table_ge11 n h
  · exact ⟨rfl, rfl⟩
  · intro n h
    exact RI_DICT_ge13 n h

/-- Claim C6 witness: the amended table facts at concrete orders. -/
theorem RI_tables_spec_witness :
    (1 ≤ 3 ∧ 3 ≤ 10 ∧ RI_DICT 3 = RI_table 3)
    ∧ (10 < 11 ∧ RI_table 11 = 149 / 100)
    ∧ (13 ≤ 14 ∧ RI_DICT 14 = 149 / 100) :=
  ⟨⟨by norm_num, by norm_num, RI_tables_spec.1 3 (by norm_num) (by norm_num)⟩,
   ⟨by norm_num, RI_tables_spec.2.2.1 11 (by norm_num)⟩,
   ⟨by norm_num, RI_tables_spec.2.2.2.2 14 (by norm_num)⟩⟩

/-! ## Basic facts about the `build_pairwise_matrix` fold -/

theorem foldl_pbStep_none {K : Type} [Field K] [DecidableEq K]
    (values : List K) (l : List (ℕ × ℕ)) :
    l.foldl (pbStep values) none = none := by
  induction l with
  | nil => rfl
  | cons p rest ih => simpa [pbStep] using ih

theorem foldl_pbStep_short {K : Type} [Field K] [DecidableEq K]
    (values : List K) (L : List (ℕ × ℕ)) :
    ∀ (c : ℕ) (M : ℕ → ℕ → K), c ≤ values.length → values.length < c + L.length →
      L.foldl (pbStep values) (some (c, M)) = none := by
  induction L with
  | nil =>
    intro c M h1 h2
    exfalso
    simp only [List.length_nil] at h2
    omega
  | cons p rest ih =>
    intro c M h1 h2
    rw [List.foldl_cons]
    rcases eq_or_lt_of_le h1 with heq | hlt
    · have hget : values[c]? = none := List.getElem?_eq_none (by omega)
      rw [show pbStep values (some (c, M)) p = none by simp [pbStep, hget]]
      exact foldl_pbStep_none values rest
    · obtain ⟨v, hv⟩ : ∃ v, values[c]? = some v := ⟨values[c], List.getElem?_eq_getElem hlt⟩
      by_cases hz : v = 0
      · rw [show pbStep values (some (c, M)) p = none by simp [pbStep, hv, hz]]
        exact foldl_pbStep_none values rest
      · rw [show pbStep values (some (c, M)) p
            = some (c + 1, setPair M p.1 p.2 v) by simp [pbStep, hv, hz]]
        apply ih (c + 1) _ (by omega)
        simp only [List.length_cons] at h2
        omega

theorem upperPairs_mem {n : ℕ} {p : ℕ × ℕ} (hp : p ∈ upperPairs n) : p.1 < p.2 := by
  unfold upperPairs at hp
  simp only [List.mem_flatMap, List.mem_map, List.mem_range] at hp
  obtain ⟨i, _, t, _, rfl⟩ := hp
  simp only []
  omega

theorem foldl_pbStep_good {K : Type} [Field K] [DecidableEq K]
    (values : List K) (hvals : ∀ v ∈ values, v ≠ 0) (L : List (ℕ × ℕ)) :
    ∀ (c : ℕ) (M : ℕ → ℕ → K),
      (∀ p ∈ L, p.1 ≠ p.2) →
      c + L.length ≤ values.length →
      IsReciprocal M →
      ∃ cM, L.foldl (pbStep values) (some (c, M)) = some cM ∧ IsReciprocal cM.2 := by
  induction L with
  | nil => intro c M _ _ hG; exact ⟨(c, M), rfl, hG⟩
  | cons p rest ih =>
    intro c M hL hlen hG
    have hc : c < values.length := by
      simp only [List.length_cons] at hlen
      omega
    have hv : values[c]? = some values[c] := List.getElem?_eq_getElem hc
    have hv0 : values[c] ≠ 0 := hvals _ (List.getElem_mem hc)
    rw [List.foldl_cons,
      show pbStep values (some (c, M)) p = some (c + 1, setPair M p.1 p.2 values[c]) by
        simp [pbStep, hv, hv0]]
    exact ih (c + 1) _ (fun q hq => hL q (List.mem_cons_of_mem p hq))
      (by simp only [List.length_cons] at hlen; omega)
      (isReciprocal_setPair hG (hL p (List.mem_cons_self p rest)) hv0)

theorem upperPairs_length (n : ℕ) : (upperPairs n).length * 2 = n * (n - 1) := by
  unfold upperPairs
  rw [List.length_flatMap]
  simp only [Function.comp_def, List.length_map, List.length_range]
  have h1 : ((List.range n).map fun i => n - i - 1).sum
      = ∑ i ∈ Finset.range n, (n - i - 1) := rfl
  rw [h1]
  have h2 : ∑ i ∈ Finset.range n, (n - i - 1) = ∑ i ∈ Finset.range n, i := by
    rw [← Finset.sum_range_reflect (fun i => i) n]
    exact Finset.sum_congr rfl fun i hi => by omega
  rw [h2]
  exact Finset.sum_range_id_mul_two n

/-! ## Claim C2: identity and reciprocity of the built matrix -/

/-- Claim C2: both builders guarantee the invariants on success.  For a
list of distinct items, `build_matrix` of `KriteriaAHP.py` on judgments
whose keys name two distinct items each and whose values are positive
returns a matrix with unit diagonal and exact reciprocity
`M i j * M j i = 1` at every position; and `build_pairwise_matrix` of
`disertasiAHP.py` on exactly `n * (n - 1) / 2` positive values (stated as
`n * (n - 1) = 2 * values.length`) returns such a matrix as well.  (The
`build_matrix` hypotheses are weaker than the claim's "exactly one judgment
per unordered pair", so the claim's instances are covered.) -/
theorem builders_reciprocal {α K : Type} [DecidableEq α] [LinearOrderedField K]
    [DecidableEq K] :
    (∀ (items : List α) (pairs : List ((α × α) × K)), items.Nodup →
      (∀ p ∈ pairs, p.1.1 ∈ items ∧ p.1.2 ∈ items ∧ p.1.1 ≠ p.1.2 ∧ 0 < p.2) →
      ∃ M, build_matrix items pairs = some M
        ∧ (∀ i, M i i = 1) ∧ ∀ i j, M i j * M j i = 1)
    ∧ (∀ (items : List α) (values : List K), items.Nodup →
      (∀ v ∈ values, 0 < v) →
      items.length * (items.length - 1) = 2 * values.length →
      ∃ M, build_pairwise_matrix items values = some M
        ∧ (∀ i, M i i = 1) ∧ ∀ i j, M i j * M j i = 1) := by
  constructor
  · intro items pairs _hnd hval
    obtain ⟨N, hN, hG⟩ := foldl_bmStep_good items pairs (fun _ _ => 1)
      (fun p hp => ⟨(hval p hp).1, (hval p hp).2.1, (hval p hp).2.2.1,
        ne_of_gt (hval p hp).2.2.2⟩)
      ⟨fun _ => rfl, fun _ _ => one_mul 1⟩
    exact ⟨N, hN, hG.1, hG.2⟩
  · intro items values _hnd hvals hcount
    have hlen : 0 + (upperPairs items.length).length ≤ values.length := by
      have h := upperPairs_length items.length
      omega
    obtain ⟨cM, hfold, hG⟩ := foldl_pbStep_good values
      (fun v hv => ne_of_gt (hvals v hv)) (upperPairs items.length) 0 (fun _ _ => 1)
      (fun p hp => Nat.ne_of_lt (upperPairs_mem hp))
      hlen ⟨fun _ => rfl, fun _ _ => one_mul 1⟩
    refine ⟨cM.2, ?_, hG.1, hG.2⟩
    unfold build_pairwise_matrix
    rw [hfold]
    rfl

/-- Claim C2 witness: the full judgment set over three items, fed to both
builders. -/
theorem builders_reciprocal_witness :
    (([0, 1, 2] : List ℕ).Nodup
      ∧ (∀ p ∈ ([((0, 1), (2 : ℚ)), ((0, 2), 3), ((1, 2), 5)] : List ((ℕ × ℕ) × ℚ)),
          p.1.1 ∈ [0, 1, 2] ∧ p.1.2 ∈ [0, 1, 2] ∧ p.1.1 ≠ p.1.2 ∧ 0 < p.2)
      ∧ ∃ M, build_matrix [0, 1, 2] [((0, 1), (2 : ℚ)), ((0, 2), 3), ((1, 2), 5)] = some M
          ∧ (∀ i, M i i = 1) ∧ ∀ i j, M i j * M j i = 1)
    ∧ ((∀ v ∈ ([2, 3, 5] : List ℚ), 0 < v)
      ∧ ([0, 1, 2] : List ℕ).length * (([0, 1, 2] : List ℕ).length - 1)
          = 2 * ([2, 3, 5] : List ℚ).length
      ∧ ∃ M, build_pairwise_matrix ([0, 1, 2] : List ℕ) ([2, 3, 5] : List ℚ) = some M
          ∧ (∀ i, M i i = 1) ∧ ∀ i j, M i j * M j i = 1) :=
  ⟨⟨by decide, by intro p hp; fin_cases hp <;> norm_num,
    builders_reciprocal.1 [0, 1, 2] [((0, 1), (2 : ℚ)), ((0, 2), 3), ((1, 2), 5)]
      (by decide) (by intro p hp; fin_cases hp <;> norm_num)⟩,
   ⟨by intro v hv; fin_cases hv <;> norm_num, by norm_num,
    builders_reciprocal.2 [0, 1, 2] [(2 : ℚ), 3, 5] (by decide)
      (by intro v hv; fin_cases hv <;> norm_num) (by norm_num)⟩⟩

/-! ## Claim C1: no completeness check in the builders -/

/-- Claim C1 (counterexample): with three items and only two of the three
required judgments (the pair of the items at positions 1 and 2 is missing),
`build_matrix` does not raise: it returns a full matrix in which the missing
pair has been silently defaulted to the initial value 1. -/
theorem build_matrix_missing_pair_cx :
    (build_matrix [0, 1, 2] [((0, 1), (2 : ℚ)), ((0, 2), 3)]).map
      (fun M => (M 1 2, M 2 1)) = some (1, 1) := by
  decide

/-- Claim C1 (amended): neither builder raises an `IncompleteInputError`
(no such check exists in the code).  `build_matrix` of `KriteriaAHP.py`
accepts any judgment set over valid items and returns a full matrix in
which every pair no judgment touches keeps the `np.ones` value 1; and
`build_pairwise_matrix` of `disertasiAHP.py` fails — with an out-of-range
list access (`IndexError`), not a dedicated error — when fewer than
`n * (n - 1) / 2` values are supplied. -/
theorem build_matrix_incomplete_spec {α K : Type} [DecidableEq α]
    [LinearOrderedField K] [DecidableEq K] :
    (∀ (items : List α) (pairs : List ((α × α) × K)),
       (∀ p ∈ pairs, p.1.1 ∈ items ∧ p.1.2 ∈ items ∧ p.2 ≠ 0) →
       ∃ M, build_matrix items pairs = some M
         ∧ ∀ i j, UntouchedPair items pairs i j → M i j = 1)
    ∧ (∀ (items : List α) (values : List K),
        2 * values.length < items.length * (items.length - 1) →
        build_pairwise_matrix items values = none) := by
  constructor
  · intro items pairs hval
    obtain ⟨M, hM⟩ := Option.isSome_iff_exists.mp
      (foldl_bmStep_isSome items pairs (fun _ _ => 1) hval)
    refine ⟨M, hM, ?_⟩
    intro i j hu
    exact foldl_bmStep_untouched items i j pairs (fun _ _ => 1) hu M hM
  · intro items values hshort
    unfold build_pairwise_matrix
    rw [foldl_pbStep_short values (upperPairs items.length) 0 _ (by omega) ?_]
    · rfl
    · have := upperPairs_length items.length
      omega

/-- Claim C1 witness: the amended behaviour at the claim's own three-item,
two-judgment instance. -/
theorem build_matrix_incomplete_spec_witness :
    (∀ p ∈ ([((0, 1), (2 : ℚ)), ((0, 2), 3)] : List ((ℕ × ℕ) × ℚ)),
        p.1.1 ∈ [0, 1, 2] ∧ p.1.2 ∈ [0, 1, 2] ∧ p.2 ≠ 0)
    ∧ (∃ M, build_matrix [0, 1, 2] [((0, 1), (2 : ℚ)), ((0, 2), 3)] = some M
        ∧ ∀ i j, UntouchedPair [0, 1, 2] [((0, 1), (2 : ℚ)), ((0, 2), 3)] i j → M i j = 1)
    ∧ (2 * ([ (2 : ℚ), 3 ] : List ℚ).length < 3 * (3 - 1)
        ∧ build_pairwise_matrix ([0, 1, 2] : List ℕ) ([2, 3] : List ℚ) = none) :=
  ⟨by intro p hp; fin_cases hp <;> norm_num,
   build_matrix_incomplete_spec.1 [0, 1, 2] [((0, 1), (2 : ℚ)), ((0, 2), 3)]
     (by intro p hp; fin_cases hp <;> norm_num),
   by norm_num,
   build_matrix_incomplete_spec.2 [0, 1, 2] [(2 : ℚ), 3] (by norm_num)⟩

/-! ## Claim C9: conflicting dual-ordered judgments -/

/-- Claim C9 (counterexample): the pair of the items at positions 0 and 1 is
supplied under both orderings with non-reciprocal values 2 and 3; no error is
raised — `build_matrix` returns the matrix built from the later entry
(`M 0 1 = 1/3`, `M 1 0 = 3`). -/
theorem build_matrix_conflict_cx :
    (build_matrix [0, 1] [((0, 1), (2 : ℚ)), ((1, 0), 3)]).map
      (fun M => (M 0 1, M 1 0)) = some (1 / 3, 3) := by
  rfl

/-- Claim C9 (amended): `build_matrix` performs no conflict detection; each
entry overwrites both cells of its unordered pair, so the entry processed
last wins: appending a judgment `((a, b), v)` to any judgment list the
builder accepts yields a matrix with `M i j = v` and `M j i = 1 / v` at the
positions of `a` and `b`, whatever was supplied for that pair before. -/
theorem build_matrix_last_wins {α K : Type} [DecidableEq α] [LinearOrderedField K]
    [DecidableEq K] (items : List α) (ps : List ((α × α) × K)) (a b : α) (v : K)
    (i j : ℕ) (hi : pyIdx items a = some i) (hj : pyIdx items b = some j)
    (hij : i ≠ j) (hv : v ≠ 0) (hs : (build_matrix items ps).isSome) :
    (build_matrix items (ps ++ [((a, b), v)])).map (fun M => (M i j, M j i))
      = some (v, 1 / v) := by
  obtain ⟨M, hM⟩ := Option.isSome_iff_exists.mp hs
  unfold build_matrix at hM ⊢
  rw [List.foldl_append, hM, List.foldl_cons, List.foldl_nil,
    show bmStep items (some M) ((a, b), v) = some (setPair M i j v) by
      simp [bmStep, hi, hj, hv]]
  have e1 : setPair M i j v i j = v := by
    unfold setPair
    rw [if_neg (by omega), if_pos ⟨rfl, rfl⟩]
  have e2 : setPair M i j v j i = 1 / v := by
    unfold setPair
    rw [if_pos ⟨rfl, rfl⟩]
  simp [e1, e2]

/-- Claim C9 witness: the amended last-wins behaviour at the
counterexample's instance. -/
theorem build_matrix_last_wins_witness :
    (pyIdx [0, 1] 1 = some 1 ∧ pyIdx [0, 1] 0 = some 0 ∧ (1 : ℕ) ≠ 0
      ∧ (3 : ℚ) ≠ 0 ∧ (build_matrix [0, 1] [((0, 1), (2 : ℚ))]).isSome)
    ∧ (build_matrix [0, 1] ([((0, 1), (2 : ℚ))] ++ [((1, 0), 3)])).map
        (fun M => (M 1 0, M 0 1)) = some (3, 1 / 3) :=
  ⟨⟨by decide, by decide, by decide, by norm_num, by decide⟩,
   build_matrix_last_wins [0, 1] [((0, 1), (2 : ℚ))] 1 0 3 1 0
     (by decide) (by decide) (by decide) (by norm_num) (by decide)⟩

/-! ## Claim C10: unknown items give a KeyError, known items never fail -/

/-- Claim C10: a judgment whose key names an element outside `items` makes
`build_matrix` fail with the unguarded lookup (`KeyError`, `none`); when
every key names items of the list (and judgment values are nonzero, as
every Saaty-scale judgment is), the lookup never fails and a matrix is
returned. -/
theorem build_matrix_keyerror {α K : Type} [DecidableEq α] [LinearOrderedField K]
    [DecidableEq K] :
    (∀ (items : List α) (pairs : List ((α × α) × K)) (p : (α × α) × K), p ∈ pairs →
       (p.1.1 ∉ items ∨ p.1.2 ∉ items) → build_matrix items pairs = none)
    ∧ (∀ (items : List α) (pairs : List ((α × α) × K)),
        (∀ p ∈ pairs, p.1.1 ∈ items ∧ p.1.2 ∈ items ∧ p.2 ≠ 0) →
        ∃ M, build_matrix items pairs = some M) := by
  constructor
  · intro items pairs p hp hbad
    exact foldl_bmStep_badkey items pairs _ p hp hbad
  · intro items pairs hval
    exact Option.isSome_iff_exists.mp (foldl_bmStep_isSome items pairs _ hval)

/-- Claim C10 witness: a key naming the unknown item 5 makes the build fail;
the same judgment over known items succeeds. -/
theorem build_matrix_keyerror_witness :
    (((0, 5), (2 : ℚ)) ∈ ([((0, 5), (2 : ℚ))] : List ((ℕ × ℕ) × ℚ))
      ∧ ((5 : ℕ) ∉ ([0, 1] : List ℕ) ∨ (5 : ℕ) ∉ ([0, 1] : List ℕ))
      ∧ build_matrix [0, 1] [((0, 5), (2 : ℚ))] = none)
    ∧ ((∀ p ∈ ([((0, 1), (2 : ℚ))] : List ((ℕ × ℕ) × ℚ)),
          p.1.1 ∈ [0, 1] ∧ p.1.2 ∈ [0, 1] ∧ p.2 ≠ 0)
        ∧ ∃ M, build_matrix [0, 1] [((0, 1), (2 : ℚ))] = some M) :=
  ⟨⟨by decide, Or.inr (by decide),
    build_matrix_keyerror.1 [0, 1] [((0, 5), (2 : ℚ))] ((0, 5), 2) (by decide)
      (Or.inr (by decide))⟩,
   ⟨by intro p hp; fin_cases hp; norm_num,
    build_matrix_keyerror.2 [0, 1] [((0, 1), (2 : ℚ))]
      (by intro p hp; fin_cases hp; norm_num)⟩⟩

/-! ## Shared facts about `consistencyK` -/

/-- Whenever the random index looked up by `consistency` is zero (matrix
orders 1 and 2), the final division `CI / RI` is a division by float zero,
so no real `CR` value is produced. -/
theorem consistencyK_cr_none {K : Type} [LinearOrderedField K] [DecidableEq K]
    (n : ℕ) (M : Fin n → Fin n → K) (w : Fin n → K) (h : RI_DICT n = 0) :
    (consistencyK n M w).2 = none := by
  by_cases hg : n ≠ 0 ∧ ∀ i, w i ≠ 0
  · by_cases h1 : n = 1
    · simp [consistencyK, hg, h1]
    · simp [consistencyK, hg, h1, h]
  · simp [consistencyK, hg]

/-! ## Claim C4: the consistency index formula -/

/-- Claim C4 (counterexample): at `n = 1` the code's
`CI = (lam - n) / (n - 1)` divides by zero (`0/0`, a float `nan`), so the
consistency check of `KriteriaAHP.py` does not return `CI = 0` for the
single-item set as the claim states: it returns no real value at all. -/
theorem consistencyK_one_cx :
    (consistencyK 1 (fun _ _ => (1 : ℚ)) (fun _ => 1)).1 = none
      ∧ (consistencyK 1 (fun _ _ => (1 : ℚ)) (fun _ => 1)).1 ≠ some 0 := by
  constructor <;> decide

/-- Claim C4 (amended): for every order `n > 1` and weight vector with
nonzero components, `consistency` of `KriteriaAHP.py` returns
`CI = (λ_max − n) / (n − 1)` with `λ_max` the mean over `i` of
`(M·w)[i] / w[i]`, exactly as the claim states; but for `n = 1` the same
formula divides by zero, so `CI` is an undefined float (`nan`), not `0`
(only `consistency_ratio` of `disertasiAHP.py` defines `CI = 0` for small
orders, and it does so for all `n ≤ 2`). -/
theorem consistencyK_CI_spec {K : Type} [LinearOrderedField K] [DecidableEq K] :
    (∀ (n : ℕ) (M : Fin n → Fin n → K) (w : Fin n → K), 1 < n → (∀ i, w i ≠ 0) →
      (consistencyK n M w).1
        = some ((((∑ i, (∑ j, M i j * w j) / w i) / (n : K)) - (n : K)) / ((n : K) - 1)))
    ∧ (∀ (M : Fin 1 → Fin 1 → K) (w : Fin 1 → K), (consistencyK 1 M w).1 = none) := by
  constructor
  · intro n M w hn hw
    simp only [consistencyK]
    rw [if_pos ⟨by omega, hw⟩, Option.some_bind, if_neg (by omega)]
  · intro M w
    simp only [consistencyK]
    split_ifs <;> rfl

/-- Claim C4 witness: the amended formula at the all-ones matrix of order
two, where it evaluates to `CI = 0`. -/
theorem consistencyK_CI_spec_witness :
    ((1 : ℕ) < 2 ∧ ∀ i : Fin 2, (fun _ : Fin 2 => (1 : ℚ)) i ≠ 0)
    ∧ (consistencyK 2 (fun _ _ => (1 : ℚ)) (fun _ => 1)).1 = some 0 := by
  refine ⟨⟨by norm_num, fun i => one_ne_zero⟩, ?_⟩
  have h := consistencyK_CI_spec.1 2 (fun _ _ => (1 : ℚ)) (fun _ => 1)
    (by norm_num) (fun i => one_ne_zero)
  rw [h]
  norm_num

/-! ## Claim C5: consistency at orders n ≤ 2 -/

/-- Claim C5 (counterexample): for the (perfectly reciprocal) all-ones
matrix of order 2 with its weight vector `[1/2, 1/2]`, the consistency
check of `KriteriaAHP.py` computes `CR = CI / RI_DICT[2] = 0 / 0.0`, a
float `nan`: it does not return the defined result `CR = 0` the claim
states. -/
theorem consistencyK_order_two_cx :
    (consistencyK 2 (fun _ _ => (1 : ℚ)) (fun _ => 1 / 2)).2 = none :=
  consistencyK_cr_none 2 _ _ rfl

/-- Claim C5 (amended): `consistency_ratio` of `disertasiAHP.py` does
return `CR = 0` for every matrix of order `n ≤ 2` (its `RI != 0` guard),
and at `n = 1` both weight derivations return `[1.0]`; but `consistency` of
`KriteriaAHP.py` has no guard: for `n ≤ 2` it divides `CI` by `RI = 0.0`
(and at `n = 1` already `CI` is `0/0`), so its `CR` is an undefined float,
not `0`. -/
theorem consistency_small_order_spec :
    (∀ (K : Type) [LinearOrderedField K], ∀ (n : ℕ) (M : Fin n → Fin n → K)
        (vec : Fin n → K), n ≤ 2 → consistency_ratioW n M vec = 0)
    ∧ (∀ M : Fin 1 → Fin 1 → ℝ, M 0 0 ≠ 0 → ∀ i, ahp_weights 1 M i = 1)
    ∧ (∀ p, dominantEigPriority 1 (fun _ _ => (1 : ℝ)) p → ∀ i, p i = 1)
    ∧ (∀ (K : Type) [LinearOrderedField K] [DecidableEq K],
        ∀ (M : Fin 1 → Fin 1 → K) (w : Fin 1 → K), consistencyK 1 M w = (none, none))
    ∧ (∀ (K : Type) [LinearOrderedField K] [DecidableEq K],
        ∀ (M : Fin 2 → Fin 2 → K) (w : Fin 2 → K), (consistencyK 2 M w).2 = none) := by
  refine ⟨?_, ?_, ?_, ?_, ?_⟩
  · intro K _ n M vec hn
    interval_cases n <;> simp [consistency_ratioW, RI_table]
  · intro M hM i
    have hi : i = 0 := Subsingleton.elim i 0
    subst hi
    unfold ahp_weights
    rw [Fin.sum_univ_one, Fin.prod_univ_one]
    rw [show ((1 : ℝ) / (1 : ℕ)) = 1 by norm_num, Real.rpow_one]
    exact div_self hM
  · intro p hp i
    obtain ⟨lam, v, hv0, _, _, hpdef⟩ := hp
    obtain ⟨k, hk⟩ := Function.ne_iff.mp hv0
    have hv : v 0 ≠ 0 := by rwa [Subsingleton.elim (0 : Fin 1) k]
    have hi : i = 0 := Subsingleton.elim i 0
    subst hi
    rw [hpdef 0, Fin.sum_univ_one]
    exact div_self ((Complex.abs.ne_zero_iff).mpr hv)
  · intro K _ _ M w
    simp only [consistencyK]
    split_ifs <;> rfl
  · intro K _ _ M w
    exact consistencyK_cr_none 2 M w rfl

/-- Claim C5 witness: the amended behaviour at order 2 (the
`disertasiAHP.py` path returns 0, the `KriteriaAHP.py` path returns no
value) and at the single-item set. -/
theorem consistency_small_order_spec_witness :
    ((2 : ℕ) ≤ 2 ∧ consistency_ratioW 2 (fun _ _ => (1 : ℚ)) (fun _ => 1 / 2) = 0)
    ∧ ((1 : ℝ) ≠ 0 ∧ ahp_weights 1 (fun _ _ => (1 : ℝ)) 0 = 1)
    ∧ (consistencyK 2 (fun _ _ => (1 : ℚ)) (fun _ => 1 / 2)).2 = none :=
  ⟨⟨by norm_num, consistency_small_order_spec.1 ℚ 2 _ _ (by norm_num)⟩,
   ⟨by norm_num, consistency_small_order_spec.2.1 (fun _ _ => (1 : ℝ)) (by norm_num) 0⟩,
   consistency_small_order_spec.2.2.2.2 ℚ _ _⟩

/-! ## Claim C3: the geometric-mean weight vector -/

/-- Claim C3: for a positive matrix of order `n ≥ 1` (the claim's formula
`(1/n)`-th power presupposes `n ≠ 0`), `ahp_weights` returns exactly the
row-geometric-mean vector normalised by its sum, with every component
nonnegative and total 1. -/
theorem ahp_weights_spec (n : ℕ) (M : Fin n → Fin n → ℝ) (hn : 0 < n)
    (hM : ∀ i j, 0 < M i j) :
    (∀ i, ahp_weights n M i
        = (∏ j, M i j) ^ ((1 : ℝ) / n) / ∑ k, (∏ j, M k j) ^ ((1 : ℝ) / n))
    ∧ (∀ i, 0 ≤ ahp_weights n M i) ∧ ∑ i, ahp_weights n M i = 1 := by
  haveI : Nonempty (Fin n) := Fin.pos_iff_nonempty.mp hn
  have hg : ∀ i, 0 < (∏ j, M i j) ^ ((1 : ℝ) / n) := fun i =>
    Real.rpow_pos_of_pos (Finset.prod_pos fun j _ => hM i j) _
  have hs : 0 < ∑ k, (∏ j, M k j) ^ ((1 : ℝ) / n) :=
    Finset.sum_pos (fun k _ => hg k) Finset.univ_nonempty
  refine ⟨fun i => rfl, fun i => div_nonneg (hg i).le hs.le, ?_⟩
  unfold ahp_weights
  rw [← Finset.sum_div, div_self (ne_of_gt hs)]

/-- Claim C3 witness: the order-one all-ones matrix. -/
theorem ahp_weights_spec_witness :
    (0 < 1 ∧ ∀ i j : Fin 1, (0 : ℝ) < (fun _ _ : Fin 1 => (1 : ℝ)) i j)
    ∧ ∑ i, ahp_weights 1 (fun _ _ => (1 : ℝ)) i = 1 :=
  ⟨⟨by norm_num, fun i j => one_pos⟩,
   (ahp_weights_spec 1 (fun _ _ => 1) (by norm_num) (fun i j => one_pos)).2.2⟩

/-! ## Claim C7: geometric-mean aggregation of expert matrices -/

/-- Claim C7: for a non-empty family of same-shape positive reciprocal
matrices, the admin aggregation has entry `(i, j)` equal to
`exp(mean over m of log(mats[m][i][j]))`, and the aggregate is itself a
positive reciprocal matrix: unit diagonal and `A j i = 1 / A i j`. -/
theorem aggregateGM_spec (k n : ℕ) (mats : Fin k → Fin n → Fin n → ℝ)
    (_hk : 0 < k)
    (_hpos : ∀ m i j, 0 < mats m i j)
    (hdiag : ∀ m i, mats m i i = 1)
    (hrec : ∀ m i j, mats m j i = 1 / mats m i j) :
    (∀ i j, aggregateGM k n mats i j = Real.exp ((∑ m, Real.log (mats m i j)) / k))
    ∧ (∀ i, aggregateGM k n mats i i = 1)
    ∧ (∀ i j, aggregateGM k n mats j i = 1 / aggregateGM k n mats i j)
    ∧ (∀ i j, 0 < aggregateGM k n mats i j) := by
  refine ⟨fun i j => rfl, ?_, ?_, fun i j => Real.exp_pos _⟩
  · intro i
    unfold aggregateGM
    simp [hdiag]
  · intro i j
    unfold aggregateGM
    rw [show (∑ m, Real.log (mats m j i)) = -∑ m, Real.log (mats m i j) by
      rw [← Finset.sum_neg_distrib]
      exact Finset.sum_congr rfl fun m _ => by rw [hrec m i j, one_div, Real.log_inv]]
    rw [neg_div, Real.exp_neg, one_div]

/-- Claim C7 witness: aggregating one order-one matrix. -/
theorem aggregateGM_spec_witness :
    (0 < 1
      ∧ (∀ m i j : Fin 1, (0 : ℝ) < (fun _ _ _ : Fin 1 => (1 : ℝ)) m i j)
      ∧ (∀ m i : Fin 1, (fun _ _ _ : Fin 1 => (1 : ℝ)) m i i = 1)
      ∧ (∀ m i j : Fin 1,
          (fun _ _ _ : Fin 1 => (1 : ℝ)) m j i = 1 / (fun _ _ _ : Fin 1 => (1 : ℝ)) m i j))
    ∧ ∀ i : Fin 1, aggregateGM 1 1 (fun _ _ _ => (1 : ℝ)) i i = 1 :=
  ⟨⟨by norm_num, fun m i j => one_pos, fun m i => rfl, fun m i j => by norm_num⟩,
   (aggregateGM_spec 1 1 (fun _ _ _ => 1) (by norm_num) (fun m i j => one_pos)
     (fun m i => rfl) (fun m i j => by norm_num)).2.1⟩

/-! ## The ratio matrix `M i j = w i / w j` of a perfectly consistent
judgment set: facts shared by the weight-derivation methods -/

theorem ratio_row (n : ℕ) (w : Fin n → ℝ) (u : Fin n → ℂ) (i : Fin n) :
    ∑ j, ((w i / w j : ℝ) : ℂ) * u j = (w i : ℂ) * ∑ j, u j / (w j : ℂ) := by
  rw [Finset.mul_sum]
  exact Finset.sum_congr rfl fun j _ => by
    rw [Complex.ofReal_div, div_mul_eq_mul_div, mul_div_assoc]

/-- Every eigenvalue of the rank-one ratio matrix is `0` or `n`. -/
theorem ratio_eigenvalue (n : ℕ) (w : Fin n → ℝ) (hw : ∀ i, 0 < w i)
    (mu : ℂ) (u : Fin n → ℂ) (hu : u ≠ 0)
    (heig : ∀ i, ∑ j, ((w i / w j : ℝ) : ℂ) * u j = mu * u i) :
    mu = 0 ∨ mu = (n : ℂ) := by
  have hWne : ∀ i : Fin n, ((w i : ℝ) : ℂ) ≠ 0 :=
    fun i => Complex.ofReal_ne_zero.mpr (ne_of_gt (hw i))
  set s : ℂ := ∑ j, u j / (w j : ℂ) with hs
  have key : ∀ i, (w i : ℂ) * s = mu * u i := by
    intro i
    rw [← ratio_row n w u i]
    exact heig i
  by_cases hmu : mu = 0
  · exact Or.inl hmu
  · right
    have hsne : s ≠ 0 := by
      intro h0
      apply hu
      funext i
      have h := key i
      rw [h0, mul_zero] at h
      have h2 := (mul_eq_zero.mp h.symm).resolve_left hmu
      simpa using h2
    have hui : ∀ i, u i = (w i : ℂ) * s / mu := by
      intro i
      rw [eq_div_iff hmu, mul_comm (u i) mu]
      exact (key i).symm
    have hs2 : s = (n : ℂ) * (s / mu) := by
      calc s = ∑ j, u j / (w j : ℂ) := hs
        _ = ∑ _j : Fin n, s / mu := Finset.sum_congr rfl fun j _ => by
            rw [hui j, mul_div_assoc, mul_comm ((w j : ℝ) : ℂ) (s / mu),
              mul_div_assoc, div_self (hWne j), mul_one]
        _ = (n : ℂ) * (s / mu) := by
            rw [Finset.sum_const, Finset.card_univ, Fintype.card_fin, nsmul_eq_mul]
    have hfin : s * mu = s * (n : ℂ) := by
      calc s * mu = ((n : ℂ) * (s / mu)) * mu := by rw [← hs2]
        _ = (n : ℂ) * ((s / mu) * mu) := by ring
        _ = (n : ℂ) * s := by rw [div_mul_cancel₀ s hmu]
        _ = s * (n : ℂ) := mul_comm _ _
    exact mul_left_cancel₀ hsne hfin

/-- The dominant eigenvector (absolute-value-normalised) of the ratio
matrix is `w` itself. -/
theorem ratio_eigenvector (n : ℕ) (w : Fin n → ℝ) (hw : ∀ i, 0 < w i)
    (hsum : ∑ i, w i = 1) (hn : 0 < n) (p : Fin n → ℝ)
    (hp : dominantEigPriority n (fun i j => w i / w j) p) : ∀ i, p i = w i := by
  obtain ⟨lam, v, hv0, heig, hmax, hpdef⟩ := hp
  have hWne : ∀ i : Fin n, ((w i : ℝ) : ℂ) ≠ 0 :=
    fun i => Complex.ofReal_ne_zero.mpr (ne_of_gt (hw i))
  have hnC : ((n : ℕ) : ℂ) ≠ 0 := Nat.cast_ne_zero.mpr (by omega)
  have hWpair : ∀ i, ∑ j, ((w i / w j : ℝ) : ℂ) * (w j : ℂ) = (n : ℂ) * (w i : ℂ) := by
    intro i
    rw [ratio_row, Finset.sum_congr rfl fun j _ => div_self (hWne j), Finset.sum_const,
      Finset.card_univ, Fintype.card_fin, nsmul_eq_mul, mul_one, mul_comm]
  have hWne0 : (fun i : Fin n => ((w i : ℝ) : ℂ)) ≠ 0 := by
    haveI : Nonempty (Fin n) := Fin.pos_iff_nonempty.mp hn
    obtain ⟨i⟩ := ‹Nonempty (Fin n)›
    exact Function.ne_iff.mpr ⟨i, by simpa using hWne i⟩
  have hlam01 : lam = 0 ∨ lam = (n : ℂ) := ratio_eigenvalue n w hw lam v hv0 heig
  have hmaxW := hmax (n : ℂ) (fun i => (w i : ℂ)) hWne0 hWpair
  have hlam : lam = (n : ℂ) := by
    rcases hlam01 with h0 | hN
    · exfalso
      rw [h0] at hmaxW
      have hnpos : (0 : ℝ) < (n : ℝ) := Nat.cast_pos.mpr hn
      rcases hmaxW with h | h
      · rw [Complex.natCast_re] at h
        simp at h
        linarith
      · have h1 := h.1
        rw [Complex.natCast_re] at h1
        simp at h1
        linarith
    · exact hN
  subst hlam
  set s : ℂ := ∑ j, v j / (w j : ℂ) with hs
  have key : ∀ i, (w i : ℂ) * s = ((n : ℕ) : ℂ) * v i := by
    intro i
    rw [← ratio_row n w v i]
    exact heig i
  have hsne : s ≠ 0 := by
    intro h0
    apply hv0
    funext i
    have h := key i
    rw [h0, mul_zero] at h
    have h2 := (mul_eq_zero.mp h.symm).resolve_left hnC
    simpa using h2
  have hvi : ∀ i, v i = ((w i : ℂ) * s) / ((n : ℕ) : ℂ) := by
    intro i
    rw [eq_div_iff hnC, mul_comm (v i) ((n : ℕ) : ℂ)]
    exact (key i).symm
  have habs : ∀ i, Complex.abs (v i) = w i * Complex.abs (s / ((n : ℕ) : ℂ)) := by
    intro i
    rw [hvi i, mul_div_assoc, map_mul, Complex.abs_ofReal, abs_of_pos (hw i)]
  have hcne : Complex.abs (s / ((n : ℕ) : ℂ)) ≠ 0 :=
    (Complex.abs.ne_zero_iff).mpr (div_ne_zero hsne hnC)
  intro i
  rw [hpdef i, Finset.sum_congr rfl fun j _ => habs j, habs i, ← Finset.sum_mul, hsum,
    one_mul]
  exact mul_div_cancel_right₀ _ hcne

/-- `λ_max` of the ratio matrix evaluated at `w` is exactly `n`. -/
theorem ratio_lam (n : ℕ) (w : Fin n → ℝ) (hw : ∀ i, 0 < w i) (hn : (n : ℝ) ≠ 0) :
    (∑ i, (∑ j, (w i / w j) * w j) / w i) / (n : ℝ) = n := by
  have h1 : ∀ i : Fin n, (∑ j, (w i / w j) * w j) = n * w i := by
    intro i
    rw [Finset.sum_congr rfl fun j _ => div_mul_cancel₀ (w i) (ne_of_gt (hw j))]
    rw [Finset.sum_const, Finset.card_univ, Fintype.card_fin, nsmul_eq_mul]
  rw [Finset.sum_congr rfl fun i _ => by
    rw [h1 i, mul_div_assoc, div_self (ne_of_gt (hw i)), mul_one]]
  rw [Finset.sum_const, Finset.card_univ, Fintype.card_fin, nsmul_eq_mul]
  exact mul_div_cancel_right₀ _ hn

/-- The geometric-mean weights of the ratio matrix recover `w` exactly. -/
theorem ahp_weights_ratio (n : ℕ) (w : Fin n → ℝ) (hw : ∀ i, 0 < w i)
    (hsum : ∑ i, w i = 1) (hn : 0 < n) :
    ∀ i, ahp_weights n (fun i j => w i / w j) i = w i := by
  have hnR : (n : ℝ) ≠ 0 := Nat.cast_ne_zero.mpr (by omega)
  have hPpos : 0 < ∏ j, w j := Finset.prod_pos fun j _ => hw j
  have hprod : ∀ i : Fin n, (∏ j, w i / w j) = w i ^ n * (∏ j, w j)⁻¹ := by
    intro i
    rw [Finset.prod_div_distrib, Finset.prod_const, Finset.card_univ, Fintype.card_fin,
      div_eq_mul_inv]
  have hcpos : 0 < ((∏ j, w j) ^ ((1 : ℝ) / n))⁻¹ :=
    inv_pos.mpr (Real.rpow_pos_of_pos hPpos _)
  have hg : ∀ i : Fin n,
      (∏ j, w i / w j) ^ ((1 : ℝ) / n) = w i * ((∏ j, w j) ^ ((1 : ℝ) / n))⁻¹ := by
    intro i
    rw [hprod i, Real.mul_rpow (pow_nonneg (hw i).le n) (inv_nonneg.mpr hPpos.le),
      Real.inv_rpow hPpos.le, ← Real.rpow_natCast (w i) n, ← Real.rpow_mul (hw i).le,
      mul_one_div, div_self hnR, Real.rpow_one]
  intro i
  simp only [ahp_weights]
  rw [Finset.sum_congr rfl fun k _ => hg k, hg i, ← Finset.sum_mul, hsum, one_mul]
  exact mul_div_cancel_right₀ _ (ne_of_gt hcpos)

/-- `consistency_ratio` of `disertasiAHP.py` on the ratio matrix with its
own priority vector `w` gives exactly 0, at every order. -/
theorem consistency_ratioW_ratio (n : ℕ) (w : Fin n → ℝ) (hw : ∀ i, 0 < w i)
    (hn : 0 < n) :
    consistency_ratioW n (fun i j => w i / w j) w = 0 := by
  have hnR : (n : ℝ) ≠ 0 := Nat.cast_ne_zero.mpr (by omega)
  have hlam := ratio_lam n w hw hnR
  simp only [consistency_ratioW, hlam, sub_self, zero_div, ite_self]

/-- `consistency` of `KriteriaAHP.py` on the ratio matrix with weights `w`
gives exactly `(CI, CR) = (0, 0)` at every order `n ≥ 3`. -/
theorem consistencyK_ratio (n : ℕ) (w : Fin n → ℝ) (hw : ∀ i, 0 < w i) (h3 : 3 ≤ n) :
    consistencyK n (fun i j => w i / w j) w = (some 0, some 0) := by
  have hnR : (n : ℝ) ≠ 0 := Nat.cast_ne_zero.mpr (by omega)
  have hlam := ratio_lam n w hw hnR
  have hg : n ≠ 0 ∧ ∀ i : Fin n, w i ≠ 0 := ⟨by omega, fun i => ne_of_gt (hw i)⟩
  have hRI : ¬ RI_DICT n = 0 := RI_DICT_ne_zero n h3
  simp only [consistencyK, if_pos hg, Option.some_bind, if_neg (by omega : ¬ n = 1),
    hlam, sub_self, zero_div, if_neg hRI]

/-! ## Claim C8: method agreement on perfectly consistent matrices -/

/-- Claim C8: for a perfectly consistent matrix `M i j = w i / w j` built
from a positive weight vector `w` summing to 1, the geometric-mean solver
returns `w` exactly, every priority vector the eigenvector solver can
return is `w` exactly (both stronger than the claimed `1e-6` agreement),
`consistency_ratio` of `disertasiAHP.py` returns `CR = 0` at every order,
and `consistency` of `KriteriaAHP.py` returns `(CI, CR) = (0, 0)` for
`n ≥ 3` (its `n ≤ 2` division by `RI = 0` is the separate small-order
defect). -/
theorem consistent_matrix_methods (n : ℕ) (w : Fin n → ℝ) (hw : ∀ i, 0 < w i)
    (hsum : ∑ i, w i = 1) :
    (∀ i, ahp_weights n (fun i j => w i / w j) i = w i)
    ∧ (∀ p, dominantEigPriority n (fun i j => w i / w j) p → ∀ i, p i = w i)
    ∧ (∀ p, dominantEigPriority n (fun i j => w i / w j) p →
        consistency_ratioW n (fun i j => w i / w j) p = 0)
    ∧ (3 ≤ n → consistencyK n (fun i j => w i / w j) w = (some 0, some 0)) := by
  have hn : 0 < n := by
    rcases Nat.eq_zero_or_pos n with rfl | h
    · exfalso
      simp at hsum
    · exact h
  refine ⟨ahp_weights_ratio n w hw hsum hn, ratio_eigenvector n w hw hsum hn, ?_, ?_⟩
  · intro p hp
    have hpw : p = w := funext (ratio_eigenvector n w hw hsum hn p hp)
    rw [hpw]
    exact consistency_ratioW_ratio n w hw hn
  · intro h3
    exact consistencyK_ratio n w hw h3

/-- Claim C8 witness: the consistent matrix built from
`w = (1/2, 1/4, 1/4)`. -/
theorem consistent_matrix_methods_witness :
    ((∀ i, 0 < (![(1 : ℝ) / 2, 1 / 4, 1 / 4]) i)
      ∧ ∑ i, (![(1 : ℝ) / 2, 1 / 4, 1 / 4]) i = 1)
    ∧ (∀ i, ahp_weights 3
        (fun i j => (![(1 : ℝ) / 2, 1 / 4, 1 / 4]) i / (![(1 : ℝ) / 2, 1 / 4, 1 / 4]) j) i
        = (![(1 : ℝ) / 2, 1 / 4, 1 / 4]) i)
    ∧ consistencyK 3
        (fun i j => (![(1 : ℝ) / 2, 1 / 4, 1 / 4]) i / (![(1 : ℝ) / 2, 1 / 4, 1 / 4]) j)
        (![(1 : ℝ) / 2, 1 / 4, 1 / 4]) = (some 0, some 0) := by
  have hw : ∀ i, 0 < (![(1 : ℝ) / 2, 1 / 4, 1 / 4]) i := by
    intro i
    fin_cases i <;> norm_num
  have hsum : ∑ i, (![(1 : ℝ) / 2, 1 / 4, 1 / 4]) i = 1 := by
    rw [Fin.sum_univ_three]
    norm_num
  exact ⟨⟨hw, hsum⟩,
    (consistent_matrix_methods 3 _ hw hsum).1,
    (consistent_matrix_methods 3 _ hw hsum).2.2.2 (by norm_num)⟩
